import Mathlib

/-!
# Verification of the two-avatar dialogue orchestrator

A shallow embedding, over `List Char`, of the turn-taking dialogue
orchestrator of the `ai-avatars-stream` repository
(`src/dialog_manager.py` and the failure path of
`src/gigachat_manager.py`), together with proofs about it.

Texts are modelled as `List Char`.  Python's `\w` character class and
`str.lower()` are modelled over the alphabet this system actually uses
(ASCII letters/digits/underscore and the Cyrillic block U+0400–U+04FF);
characters outside this alphabet are treated as non-word characters and
are fixed by lowercasing.
-/

set_option autoImplicit false
set_option maxRecDepth 20000

namespace AvatarStream

/-! ## Character-level model -/

/-- Model of Python's regex word-character class `\w`, restricted to the
alphabet used by the system: ASCII digits, ASCII letters, underscore and
the Cyrillic block U+0400–U+04FF. -/
def isW (c : Char) : Bool :=
  decide ((0x30 ≤ c.toNat ∧ c.toNat ≤ 0x39) ∨ (0x41 ≤ c.toNat ∧ c.toNat ≤ 0x5A) ∨
    (0x61 ≤ c.toNat ∧ c.toNat ≤ 0x7A) ∨ c.toNat = 0x5F ∨
    (0x400 ≤ c.toNat ∧ c.toNat ≤ 0x4FF))

/-- Model of Python's `str.lower()` on a single character, restricted to
ASCII `A`–`Z` and the Cyrillic capitals U+0400–U+042F (which cover the
letters appearing in the repository's pattern lists, `Ё` included). -/
def lc (c : Char) : Char :=
  if 0x41 ≤ c.toNat ∧ c.toNat ≤ 0x5A then Char.ofNat (c.toNat + 0x20)
  else if 0x410 ≤ c.toNat ∧ c.toNat ≤ 0x42F then Char.ofNat (c.toNat + 0x20)
  else if 0x400 ≤ c.toNat ∧ c.toNat ≤ 0x40F then Char.ofNat (c.toNat + 0x50)
  else c

/-- Model of the whitespace stripped by Python's `str.strip()`. -/
def isSpaceChar (c : Char) : Bool :=
  c = ' ' || c = '\t' || c = '\n' || c = '\r' || c = '\x0b' || c = '\x0c'

/-- Python's `str.strip()`. -/
def strip (t : List Char) : List Char :=
  (t.dropWhile isSpaceChar).rdropWhile isSpaceChar

/-- `startsW p t`: `p` is a prefix of `t` (used to model Python's `in`). -/
def startsW : List Char → List Char → Bool
  | [], _ => true
  | _ :: _, [] => false
  | p :: ps, c :: cs => p == c && startsW ps cs

/-- Model of Python's substring test `p in t`. -/
def isSubl (p : List Char) : List Char → Bool
  | [] => p.isEmpty
  | c :: cs => startsW p (c :: cs) || isSubl p cs

/-! ## Maximal word-character runs

`re.sub(rf'\b{w}\b', repl, t, flags=re.IGNORECASE)` for a pattern `w`
consisting entirely of word characters replaces exactly those maximal
word-character runs of `t` that equal `w` up to case: a `\b` boundary
holds exactly at the edges of maximal runs, and a match made of word
characters lies inside a single run, so a doubly-`\b`-delimited match is
a whole run. We therefore represent a text by its decomposition into
maximal runs of characters of equal word-status. -/

/-- Add one character to the front of a run decomposition, merging it into
the first run when the word-status matches. -/
def pushRun (c : Char) : List (List Char) → List (List Char)
  | [] => [[c]]
  | [] :: rs => [c] :: rs
  | (d :: r) :: rs => if isW c = isW d then (c :: d :: r) :: rs else [c] :: (d :: r) :: rs

/-- Decompose a text into its maximal runs of equal word-status. -/
def toRuns (t : List Char) : List (List Char) := t.foldr pushRun []

/-- The word-status of a run (by its first character). -/
def runW (r : List Char) : Bool := isW (r.headD ' ')

/-- A nonempty run whose characters all share the run's word-status. -/
def uniformRun (r : List Char) : Prop := r ≠ [] ∧ ∀ c ∈ r, isW c = runW r

/-- A valid run decomposition: uniform nonempty runs with alternating
word-status. -/
def runsOK (rs : List (List Char)) : Prop :=
  (∀ r ∈ rs, uniformRun r) ∧ rs.Chain' (fun a b => runW a ≠ runW b)

/-! ## Forbidden-word substitution (`DialogManager.FORBIDDEN_WORDS` loop) -/

/-- `DialogManager.FORBIDDEN_WORDS`. -/
def forbiddenWords : List (List Char) :=
  ["дружище".data, "брат".data, "парень".data, "чувак".data, "мужик".data]

/-- The neutral replacement word `'коллега'`. -/
def kollega : List Char := "коллега".data

/-- Replace a run by `kollega` when it equals `w` case-insensitively. -/
def replRun (w r : List Char) : List Char :=
  if r.map lc = w.map lc then kollega else r

/-- `re.sub(rf'\b{w}\b', repl, t, flags=re.IGNORECASE)` for a pattern `w`
made entirely of word characters: replace every maximal word-character
run of `t` that equals `w` case-insensitively (see the run/`\b`
correspondence described above). Only used with `repl = kollega`. -/
def subWordCI (w repl t : List Char) : List Char :=
  ((toRuns t).map (fun r => if r.map lc = w.map lc then repl else r)).flatten

/-- `t` contains `w` as a standalone (whole, `\b`-delimited) word, up to
case: some maximal word-character run of `t` equals `w`
case-insensitively. -/
def hasWordCI (w t : List Char) : Bool :=
  (toRuns t).any (fun r => decide (r.map lc = w.map lc))

/-- One iteration of the forbidden-words loop in
`DialogManager._validate_and_fix_reply`:
`if word in fixed_text.lower(): fixed_text = re.sub(rf'\b{word}\b', 'коллега', fixed_text, flags=re.IGNORECASE)`. -/
def checkWord (t w : List Char) : List Char :=
  if isSubl w (t.map lc) then subWordCI w kollega t else t

/-- The whole forbidden-words loop of `_validate_and_fix_reply`. -/
def applyForbidden (t : List Char) : List Char := forbiddenWords.foldl checkWord t

/-! ## Case-insensitive whole-word scanner (gender-correction patterns)

The gender-correction patterns of `_validate_and_fix_reply` contain
spaces, so they are not covered by the run representation; they are
modelled by a direct left-to-right scanner equivalent to
`re.sub(rf'\b{pat}\b', repl, ·, flags=re.IGNORECASE)` for literal
patterns that start and end with a word character (as all of them do). -/

/-- Case-insensitive literal match of `p` against the start of `t`;
returns the rest of `t` on success. -/
def stripPreCI : List Char → List Char → Option (List Char)
  | [], t => some t
  | _ :: _, [] => none
  | p :: ps, c :: cs => if lc c = lc p then stripPreCI ps cs else none

/-- The `\b` boundary after a match of a pattern ending in a word
character: the next character is absent or not a word character. -/
def bdyA : List Char → Bool
  | [] => true
  | d :: _ => !isW d

/-- Left-to-right scanner for `re.sub(rf'\b{p0 :: ps}\b', repl, ·, re.IGNORECASE)`,
with explicit fuel (every call from `subWW` keeps the fuel at least the
text length, so the 0-fuel case is unreachable). `prevW` records whether
the previous character is a word character; since the pattern starts and
ends with word characters, `\b` holds before a candidate match iff
`prevW = false`, and after it iff `bdyA` of the rest. As in `re.sub`,
matching continues in the original text after a replaced match. -/
def subWWF (p0 : Char) (ps repl : List Char) : Nat → Bool → List Char → List Char
  | 0, _, t => t
  | _ + 1, _, [] => []
  | fuel + 1, prevW, c :: cs =>
    if prevW then c :: subWWF p0 ps repl fuel (isW c) cs
    else if lc c = lc p0 then
      match stripPreCI ps cs with
      | some rest =>
        if bdyA rest then repl ++ subWWF p0 ps repl fuel true rest
        else c :: subWWF p0 ps repl fuel (isW c) cs
      | none => c :: subWWF p0 ps repl fuel (isW c) cs
    else c :: subWWF p0 ps repl fuel (isW c) cs

/-- `re.sub(rf'\b{pat}\b', repl, t, flags=re.IGNORECASE)` for a nonempty
literal `pat` starting and ending with a word character. -/
def subWW (pat repl t : List Char) : List Char :=
  match pat with
  | [] => t
  | p0 :: ps => subWWF p0 ps repl t.length false t

/-- The ordered gender-correction replacement list applied for
`agent_2` in `_validate_and_fix_reply` (source order). -/
def genderReplacements : List (List Char × List Char) :=
  [("я уверен".data, "я уверена".data),
   ("я был".data, "я была".data),
   ("я подумал".data, "я подумала".data),
   ("я сказал".data, "я сказала".data),
   ("я рад".data, "я рада".data),
   ("согласен".data, "согласна".data),
   ("хотел бы".data, "хотела бы".data),
   ("готов".data, "готова".data),
   ("уверен".data, "уверена".data),
   ("был".data, "была".data),
   ("подумал".data, "подумала".data),
   ("сказал".data, "сказала".data),
   ("рад".data, "рада".data)]

/-- The gender-correction loop of `_validate_and_fix_reply`. -/
def applyGender (t : List Char) : List Char :=
  genderReplacements.foldl (fun acc pr => subWW pr.1 pr.2 acc) t

/-! ## `DialogManager._validate_and_fix_reply` -/

/-- The filler used for an empty/too-short reply of `agent_1`. -/
def fillerAgent1 : List Char := "[РАДОСТЬ] Интересная мысль! Продолжим обсуждение?".data

/-- The filler used for an empty/too-short reply of the other agent. -/
def fillerAgent2 : List Char := "[ЛЮБОПЫТСТВО] Ой, а расскажи подробнее!".data

/-- Step 3 of `_validate_and_fix_reply`: gender correction, only for
`agent_2`. -/
def applyGenderIf (agentId : String) (t : List Char) : List Char :=
  if agentId = "agent_2" then applyGender t else t

/-- `DialogManager._validate_and_fix_reply`: empty/short check, length
cap, gender correction for `agent_2`, forbidden-word substitution. -/
def validateAndFixReply (text : List Char) (agentId : String) : List Char :=
  if (strip text).length < 5 then
    (if agentId = "agent_1" then fillerAgent1 else fillerAgent2)
  else
    applyForbidden (applyGenderIf agentId
      (if 1000 < text.length then text.take 997 ++ "...".data else text))

/-! ## `DialogManager._extract_emotion` -/

/-- Case-sensitive literal match of `p` against the start of `t`. -/
def stripPre : List Char → List Char → Option (List Char)
  | [], t => some t
  | _ :: _, [] => none
  | p :: ps, c :: cs => if c = p then stripPre ps cs else none

/-- Scanner for Python's `str.replace` (all non-overlapping occurrences,
left to right), with fuel as in `subWWF`. -/
def replaceAllF (p0 : Char) (ps repl : List Char) : Nat → List Char → List Char
  | 0, t => t
  | _ + 1, [] => []
  | fuel + 1, c :: cs =>
    if c = p0 then
      match stripPre ps cs with
      | some rest => repl ++ replaceAllF p0 ps repl fuel rest
      | none => c :: replaceAllF p0 ps repl fuel cs
    else c :: replaceAllF p0 ps repl fuel cs

/-- Python's `t.replace(pat, repl)`. For the empty pattern with the empty
replacement (the only degenerate case reachable here) Python also
returns the text unchanged. -/
def pyReplace (pat repl t : List Char) : List Char :=
  match pat with
  | [] => t
  | p0 :: ps => replaceAllF p0 ps repl t.length t

/-- The default tag returned when no known emotion tag occurs. -/
def neutralTag : List Char := "[НЕЙТРАЛЬНО]".data

/-- `DialogManager._extract_emotion`; the agent configuration enters only
through its list of emotion tag strings
(`[e["tag"] for e in agent_config.get("emotions", [])]`, in order). -/
def extractEmotion (text : List Char) : List (List Char) → List Char × List Char
  | [] => (neutralTag, strip text)
  | tag :: rest =>
    if isSubl tag text then (tag, strip (pyReplace tag [] text))
    else extractEmotion text rest

/-! ## Python dictionaries (history entries) -/

/-- The values stored in a history-entry dictionary. -/
inductive PyVal
  | vStr (s : List Char)
  | vNat (n : Nat)
  | vRat (q : ℚ)
  deriving DecidableEq

/-- A Python dictionary with string keys, as an ordered association list
without duplicate keys. -/
abbrev PyDict := List (String × PyVal)

/-- `d[k] = v` on a Python dict: overwrite in place if the key exists,
append otherwise. -/
def setKey (d : PyDict) (k : String) (v : PyVal) : PyDict :=
  if d.any (fun p => p.1 == k) then d.map (fun p => if p.1 = k then (k, v) else p)
  else d ++ [(k, v)]

/-- Python's `d.update(m)`. -/
def dictUpdate (d m : PyDict) : PyDict :=
  m.foldl (fun acc p => setKey acc p.1 p.2) d

/-- Key lookup in a Python dict (the first — and, keys being unique, the
only — binding of the key). -/
def lookupKey : PyDict → String → Option PyVal
  | [], _ => none
  | p :: d, k => if p.1 = k then some p.2 else lookupKey d k

/-- The entry built by `DialogManager.add_to_history`: the base dict
`{"role": …, "content": …, "timestamp": …}` updated with `metadata`
(`entry.update(metadata)`; for `metadata = None`/`{}` the update is a
no-op, matching `if metadata:`). The timestamp value is supplied by the
caller (it models `datetime.now().isoformat()`). -/
def mkEntry (role content ts : List Char) (metadata : PyDict) : PyDict :=
  dictUpdate [("role", .vStr role), ("content", .vStr content), ("timestamp", .vStr ts)]
    metadata

/-! ## History buffer (`DialogManager.add_to_history`) -/

/-- Python's `lst[-m:]`. For `m = 0` this is the whole list
(`lst[-0:]` is `lst[0:]`). -/
def pySliceLast {α : Type} (m : Nat) (l : List α) : List α :=
  if m = 0 then l else l.drop (l.length - m)

/-- `DialogManager.add_to_history`, acting on the stored history: append
the entry, then truncate with `self.history[-self.max_history:]` when the
length exceeds `max_history`. -/
def addToHistory {α : Type} (maxH : Nat) (h : List α) (e : α) : List α :=
  let h' := h ++ [e]
  if maxH < h'.length then pySliceLast maxH h' else h'

/-! ## Dialogue orchestrator state (`DialogManager`) -/

/-- The mutable state of a `DialogManager`. The session start time is
not represented (wall-clock time; no claim depends on it). -/
structure DMState where
  agentQueue : List String
  turnOrder : List String
  maxHistory : Nat
  history : List PyDict
  replyCount : Nat
  totalTokens : Nat
  deriving DecidableEq

/-- `DialogManager.__init__` with a given turn order and `max_history`. -/
def initState (turnOrder : List String) (maxHistory : Nat) : DMState :=
  { agentQueue := turnOrder, turnOrder := turnOrder, maxHistory := maxHistory,
    history := [], replyCount := 0, totalTokens := 0 }

/-- `DialogManager.get_next_agent`: return the queue head and rotate the
deque left by one (`deque.rotate(-1)`). The queue is nonempty in every
configured state (the turn order is nonempty). -/
def getNextAgent (q : List String) : String × List String :=
  (q.headD "", q.rotate 1)

/-- The queue after one `get_next_agent` call. -/
def advanceQueue (q : List String) : List String := (getNextAgent q).2

/-! ## Backend failure model (`GigaChatManager.generate_response`) -/

/-- One failed attempt inside the retry loop of `generate_response`:
either the HTTP call (or response handling) raised, or the answer was
empty/too short. -/
inductive AttemptFail
  | raise
  | emptyAnswer
  deriving DecidableEq

/-- The sentinel returned by `generate_response` when no attempt
produces a usable answer. -/
def apologyText : List Char := "Извините, не удалось получить ответ от GigaChat.".data

/-- The retry loop of `GigaChatManager.generate_response` when every
attempt fails: an empty answer on the last attempt returns the sentinel
inside the loop, an exception on the last attempt falls through to the
final `return` — in every case `("Извините, …", 0)`. -/
def generateResponseFail : List AttemptFail → List Char × Nat
  | [] => (apologyText, 0)
  | [AttemptFail.emptyAnswer] => (apologyText, 0)
  | [AttemptFail.raise] => (apologyText, 0)
  | _ :: a :: rest => generateResponseFail (a :: rest)

/-- How the backend call inside `DialogManager.get_next_reply` fails on
one turn: `generate_response` raised before/outside its retry loop
(e.g. a token refresh failure, which `_get_access_token` re-raises), or
it exhausted its retries and returned the sentinel. -/
inductive BackendOutcome
  | raised
  | retriesExhausted (attempts : List AttemptFail)
  deriving DecidableEq

/-- The hard-coded fallback reply used by `get_next_reply` when the
backend raises. -/
def exceptionFallback (agentId : String) : List Char :=
  if agentId = "agent_1" then "[РАДОСТЬ] Что-то я задумался. Продолжим?".data
  else "[ЛЮБОПЫТСТВО] Ой, а давай вернёмся к теме!".data

/-! ## `DialogManager.get_next_reply` under a failing backend -/

/-- The per-agent configuration entries that `get_next_reply` reads. -/
structure AgentCfg where
  name : List Char
  temperature : ℚ
  maxTokens : Nat
  emotions : List (List Char)

/-- The tuple returned by `get_next_reply`. -/
structure TurnResult where
  agentId : String
  fullText : List Char
  cleanText : List Char
  tokens : Nat
  deriving DecidableEq

/-- One call of `DialogManager.get_next_reply` in which the backend call
fails with outcome `o` (the claim under study quantifies over such
turns, so the success path of the backend is not modelled). The
timestamp stored in the history entry models `datetime.now()` and is
supplied as the empty string; no claim depends on it. -/
def getNextReplyFail (cfg : String → AgentCfg) (s : DMState) (o : BackendOutcome) :
    TurnResult × DMState :=
  let agentId := (getNextAgent s.agentQueue).1
  let q' := (getNextAgent s.agentQueue).2
  let rawTok :=
    match o with
    | .raised => (exceptionFallback agentId, 10)
    | .retriesExhausted attempts => generateResponseFail attempts
  let responseText := validateAndFixReply rawTok.1 agentId
  let ec := extractEmotion responseText (cfg agentId).emotions
  let metadata : PyDict :=
    [("agent_id", .vStr agentId.data), ("agent_name", .vStr (cfg agentId).name),
     ("emotion", .vStr ec.1), ("tokens", .vNat rawTok.2),
     ("temperature", .vRat (cfg agentId).temperature)]
  let entry := mkEntry "assistant".data responseText [] metadata
  (⟨agentId, responseText, ec.2, rawTok.2⟩,
   { s with agentQueue := q',
            history := addToHistory s.maxHistory s.history entry,
            replyCount := s.replyCount + 1,
            totalTokens := s.totalTokens + rawTok.2 })

/-- A sequence of `get_next_reply` calls, each with a failing backend. -/
def runFails (cfg : String → AgentCfg) (s : DMState) :
    List BackendOutcome → List TurnResult × DMState
  | [] => ([], s)
  | o :: os =>
    let rs := getNextReplyFail cfg s o
    let rest := runFails cfg rs.2 os
    (rs.1 :: rest.1, rest.2)

/-! ## `DialogManager.save_dialog_log` and `get_statistics` -/

/-- The structured data written by `save_dialog_log` (the JSON file
content; timestamps model `self.start_time.isoformat()` and
`datetime.now().isoformat()` and are supplied by the caller). -/
structure DialogLog where
  startTime : List Char
  endTime : List Char
  totalReplies : Nat
  totalTokens : Nat
  turnOrder : List String
  history : List PyDict
  deriving DecidableEq

/-- `DialogManager.save_dialog_log`: the exported transcript is built
from the state's (already truncated) `self.history`. -/
def saveDialogLog (s : DMState) (startTime endTime : List Char) : DialogLog :=
  { startTime := startTime, endTime := endTime,
    totalReplies := s.replyCount, totalTokens := s.totalTokens,
    turnOrder := s.turnOrder, history := s.history }

/-- The dictionary returned by `DialogManager.get_statistics`
(`duration_seconds` is wall-clock time, supplied by the caller). -/
structure Statistics where
  totalReplies : Nat
  totalTokens : Nat
  averageTokensPerReply : ℚ
  historyLength : Nat
  currentTurn : String
  durationSeconds : Nat
  deriving DecidableEq

/-- `DialogManager.get_statistics`. -/
def getStatistics (s : DMState) (durationSeconds : Nat) : Statistics :=
  { totalReplies := s.replyCount, totalTokens := s.totalTokens,
    averageTokensPerReply :=
      if 0 < s.replyCount then (s.totalTokens : ℚ) / (s.replyCount : ℚ) else 0,
    historyLength := s.history.length,
    currentTurn := s.agentQueue.headD "",
    durationSeconds := durationSeconds }

/-! ## Supporting concrete data for the claim theorems -/

/-- Five distinct history entries (as built by `add_to_history`). -/
def c5Entries : List PyDict :=
  [mkEntry "assistant".data "r1".data [] [],
   mkEntry "assistant".data "r2".data [] [],
   mkEntry "assistant".data "r3".data [] [],
   mkEntry "assistant".data "r4".data [] [],
   mkEntry "assistant".data "r5".data [] []]

/-- The `DialogManager` state of a session with `max_history = 3` whose
history received five entries. -/
def c5State : DMState :=
  { initState ["agent_1", "agent_2"] 3 with
    history := c5Entries.foldl (addToHistory 3) [], replyCount := 5 }

/-! ## C2 — length cap and ellipsis -/

/-- A 1008-character text consisting of 168 repetitions of `"мужик "`. -/
def longMuzhik : List Char := (List.replicate 168 "мужик ".data).flatten

/-! ## C1 — turns under a failing backend -/

/-- The outcome of one failing turn as realised by the code: the
participant-specific fallback with 10 tokens when the backend raised;
the backend's apology sentinel with 0 tokens when it exhausted its
retries. -/
def expectedFailResult (agentId : String) : BackendOutcome → List Char × Nat
  | .raised => (exceptionFallback agentId, 10)
  | .retriesExhausted _ => (apologyText, 0)

/-- The (participant, text, tokens) sequence of a run of failing turns
starting from queue `q`. -/
def expectedFailOutputs (q : List String) :
    List BackendOutcome → List (String × List Char × Nat)
  | [] => []
  | o :: os =>
    ((getNextAgent q).1, expectedFailResult (getNextAgent q).1 o) ::
      expectedFailOutputs (getNextAgent q).2 os

/-- A trivial agent configuration (the outputs of a failing turn do not
depend on it). -/
def cfg0 : String → AgentCfg := fun _ => ⟨[], 0, 500, []⟩

/-! ## Theorems -/

theorem toNat_ofNat_valid (m : Nat) (h : m < 0xD800) : (Char.ofNat m).toNat = m := by
  rw [Char.ofNat, dif_pos (Or.inl h)]
  rfl

/-- Lowercasing preserves word-character status. -/
theorem isW_lc (c : Char) : isW (lc c) = isW c := by
  unfold lc
  split
  · next h =>
    rw [isW, isW, toNat_ofNat_valid _ (by omega)]
    simp only [decide_eq_decide]
    omega
  · split
    · next h =>
      rw [isW, isW, toNat_ofNat_valid _ (by omega)]
      simp only [decide_eq_decide]
      omega
    · split
      · next h =>
        rw [isW, isW, toNat_ofNat_valid _ (by omega)]
        simp only [decide_eq_decide]
        omega
      · rfl

theorem startsW_iff (p t : List Char) : startsW p t = true ↔ ∃ b, t = p ++ b := by
  induction p generalizing t with
  | nil => simp [startsW]
  | cons x ps ih =>
    cases t with
    | nil => simp [startsW]
    | cons c cs =>
      simp only [startsW, Bool.and_eq_true, beq_iff_eq, ih]
      constructor
      · rintro ⟨rfl, b, rfl⟩
        exact ⟨b, rfl⟩
      · rintro ⟨b, hb⟩
        injection hb with h1 h2
        exact ⟨h1.symm, b, h2⟩

theorem isSubl_iff (p t : List Char) : isSubl p t = true ↔ ∃ a b, t = a ++ p ++ b := by
  induction t with
  | nil =>
    simp only [isSubl, List.isEmpty_iff]
    constructor
    · rintro rfl; exact ⟨[], [], rfl⟩
    · rintro ⟨a, b, hab⟩
      rcases List.append_eq_nil.mp ((List.append_eq_nil).mp hab.symm).1 with ⟨_, h2⟩
      exact h2
  | cons c cs ih =>
    simp only [isSubl, Bool.or_eq_true, startsW_iff, ih]
    constructor
    · rintro (⟨b, hb⟩ | ⟨a, b, hab⟩)
      · exact ⟨[], b, by simp [hb]⟩
      · exact ⟨c :: a, b, by simp [hab]⟩
    · rintro ⟨a, b, hab⟩
      cases a with
      | nil => exact Or.inl ⟨b, by simpa using hab⟩
      | cons a0 as =>
        injection hab with h1 h2
        exact Or.inr ⟨as, b, h2⟩

@[simp] theorem pushRun_eqn1 (c : Char) : pushRun c [] = [[c]] := rfl

@[simp] theorem pushRun_eqn2 (c : Char) (rs : List (List Char)) :
    pushRun c ([] :: rs) = [c] :: rs := rfl

@[simp] theorem pushRun_eqn3 (c d : Char) (r : List Char) (rs : List (List Char)) :
    pushRun c ((d :: r) :: rs) =
      if isW c = isW d then (c :: d :: r) :: rs else [c] :: (d :: r) :: rs := rfl

theorem pushRun_flatten (c : Char) (rs : List (List Char)) :
    (pushRun c rs).flatten = c :: rs.flatten := by
  match rs with
  | [] => rfl
  | [] :: rs => simp [pushRun]
  | (d :: r) :: rs =>
    simp only [pushRun]
    split <;> simp

theorem toRuns_flatten (t : List Char) : (toRuns t).flatten = t := by
  induction t with
  | nil => rfl
  | cons c cs ih =>
    show (pushRun c (toRuns cs)).flatten = c :: cs
    rw [pushRun_flatten, ih]

theorem pushRun_shape (c : Char) (rs : List (List Char)) :
    ∃ s rs', pushRun c rs = (c :: s) :: rs' := by
  match rs with
  | [] => exact ⟨[], [], rfl⟩
  | [] :: rs => exact ⟨[], rs, rfl⟩
  | (d :: r) :: rs =>
    simp only [pushRun]
    split
    · exact ⟨d :: r, rs, rfl⟩
    · exact ⟨[], (d :: r) :: rs, rfl⟩

theorem runsOK_pushRun (c : Char) (rs : List (List Char)) (h : runsOK rs) :
    runsOK (pushRun c rs) := by
  obtain ⟨hu, hc⟩ := h
  match rs with
  | [] =>
    refine ⟨?_, by simp [pushRun]⟩
    intro r hr
    simp only [pushRun_eqn1, List.mem_singleton] at hr
    subst hr
    exact ⟨by simp, by simp [runW]⟩
  | [] :: rs =>
    exact absurd rfl (hu [] (by simp)).1
  | (d :: r) :: rs =>
    simp only [pushRun]
    split
    · next heq =>
      constructor
      · intro s hs
        rcases List.mem_cons.mp hs with rfl | hs
        · have hd := hu (d :: r) (by simp)
          refine ⟨by simp, ?_⟩
          intro x hx
          rcases List.mem_cons.mp hx with rfl | hx
          · simp [runW]
          · have := hd.2 x hx
            simp only [runW, List.headD_cons] at this ⊢
            rw [this, heq]
        · exact hu s (by simp [hs])
      · have : runW (c :: d :: r) = runW (d :: r) := by simp [runW, heq]
        rcases rs with _ | ⟨s, rs'⟩
        · simp
        · refine List.chain'_cons.mpr ⟨?_, (List.chain'_cons.mp hc).2⟩
          rw [this]
          exact (List.chain'_cons.mp hc).1
    · next hne =>
      constructor
      · intro s hs
        rcases List.mem_cons.mp hs with rfl | hs
        · exact ⟨by simp, by simp [runW]⟩
        · exact hu s hs
      · refine List.chain'_cons.mpr ⟨?_, hc⟩
        simp only [runW, List.headD_cons]
        exact hne

theorem toRuns_runsOK (t : List Char) : runsOK (toRuns t) := by
  induction t with
  | nil => exact ⟨by simp [toRuns], List.chain'_nil⟩
  | cons c cs ih => exact runsOK_pushRun c (toRuns cs) ih

/-- Prepending a uniform run to a text whose first character has the other
word-status simply prepends the run to the decomposition. -/
theorem toRuns_run_append (r x : List Char) (b : Bool) (hne : r ≠ [])
    (hr : ∀ c ∈ r, isW c = b) (hx : ∀ d, x.head? = some d → isW d ≠ b) :
    toRuns (r ++ x) = r :: toRuns x := by
  induction r with
  | nil => exact absurd rfl hne
  | cons c r' ih =>
    cases r' with
    | nil =>
      show pushRun c (toRuns x) = [c] :: toRuns x
      cases x with
      | nil => rfl
      | cons d x' =>
        obtain ⟨s, rs', hshape⟩ := pushRun_shape d (toRuns x')
        show pushRun c (pushRun d (toRuns x')) = [c] :: pushRun d (toRuns x')
        rw [hshape, pushRun_eqn3, if_neg]
        rw [hr c (by simp)]
        exact fun h => hx d rfl h.symm
    | cons c2 r'' =>
      have hih : toRuns ((c2 :: r'') ++ x) = (c2 :: r'') :: toRuns x :=
        ih (by simp) (fun d hd => hr d (by simp [List.mem_cons] at hd ⊢; tauto))
      show pushRun c (toRuns ((c2 :: r'') ++ x)) = (c :: c2 :: r'') :: toRuns x
      rw [hih, pushRun_eqn3, if_pos]
      rw [hr c (by simp), hr c2 (by simp)]

/-- A valid run decomposition is the run decomposition of its own
flattening. -/
theorem toRuns_canonical (rs : List (List Char)) (h : runsOK rs) :
    toRuns rs.flatten = rs := by
  induction rs with
  | nil => rfl
  | cons r rs' ih =>
    obtain ⟨hu, hc⟩ := h
    have hr := hu r (by simp)
    rw [List.flatten_cons]
    rw [toRuns_run_append r rs'.flatten (runW r) hr.1 hr.2]
    · rw [ih ⟨fun s hs => hu s (by simp [hs]), (List.chain'_cons'.mp hc).2⟩]
    · intro d hd
      cases rs' with
      | nil => simp at hd
      | cons s rs'' =>
        have hs := hu s (by simp)
        have hchain : runW r ≠ runW s := (List.chain'_cons.mp hc).1
        rw [List.flatten_cons] at hd
        cases s with
        | nil => exact absurd rfl hs.1
        | cons s0 s' =>
          simp only [List.cons_append, List.head?_cons, Option.some.injEq] at hd
          have hds0 : isW s0 = runW (s0 :: s') := hs.2 s0 (by simp)
          rw [← hd, hds0]
          exact fun hh => hchain hh.symm

theorem listAny_congr {α : Type} (l : List α) (p q : α → Bool)
    (h : ∀ a ∈ l, p a = q a) : l.any p = l.any q := by
  induction l with
  | nil => rfl
  | cons a as ih =>
    simp only [List.any_cons]
    rw [h a (by simp), ih (fun x hx => h x (by simp [hx]))]

theorem runW_replRun (w r : List Char) (hne : w ≠ [])
    (hWord : ∀ c ∈ w, isW c = true) :
    runW (replRun w r) = runW r := by
  rw [replRun]
  split
  · next hmap =>
    cases w with
    | nil => exact absurd rfl hne
    | cons w0 ws =>
      cases r with
      | nil => simp at hmap
      | cons r0 rs =>
        simp only [List.map_cons, List.cons.injEq] at hmap
        have h0 : isW r0 = isW w0 := by
          rw [← isW_lc r0, hmap.1, isW_lc]
        simp only [runW, List.headD_cons]
        rw [h0, hWord w0 (by simp)]
        rfl
  · rfl

theorem uniformRun_replRun (w r : List Char) (hr : uniformRun r) :
    uniformRun (replRun w r) := by
  rw [replRun]
  split
  · exact ⟨by simp [kollega], by decide⟩
  · exact hr

theorem toRuns_subWordCI (w t : List Char) (hne : w ≠ [])
    (hWord : ∀ c ∈ w, isW c = true) :
    toRuns (subWordCI w kollega t) = (toRuns t).map (replRun w) := by
  have hmap : (toRuns t).map (fun r => if r.map lc = w.map lc then kollega else r) =
      (toRuns t).map (replRun w) := by
    apply List.map_congr_left
    intro r _
    rfl
  rw [subWordCI, hmap]
  apply toRuns_canonical
  obtain ⟨hu, hc⟩ := toRuns_runsOK t
  constructor
  · intro r hr
    rw [List.mem_map] at hr
    obtain ⟨s, hs, rfl⟩ := hr
    exact uniformRun_replRun w s (hu s hs)
  · rw [List.chain'_map]
    apply List.Chain'.imp ?_ hc
    intro a b hab
    rw [runW_replRun w a hne hWord, runW_replRun w b hne hWord]
    exact hab

theorem hasWordCI_subWordCI_self (w t : List Char) (hne : w ≠ [])
    (hWord : ∀ c ∈ w, isW c = true) (hk : kollega.map lc ≠ w.map lc) :
    hasWordCI w (subWordCI w kollega t) = false := by
  rw [hasWordCI, toRuns_subWordCI w t hne hWord, List.any_map, List.any_eq_false]
  intro r _
  simp only [Function.comp_apply, decide_eq_true_eq, replRun]
  split
  · exact hk
  · next h => exact h

theorem hasWordCI_subWordCI_other (u w t : List Char) (hne : w ≠ [])
    (hWord : ∀ c ∈ w, isW c = true) (hk : kollega.map lc ≠ u.map lc)
    (huw : u.map lc ≠ w.map lc) :
    hasWordCI u (subWordCI w kollega t) = hasWordCI u t := by
  rw [hasWordCI, hasWordCI, toRuns_subWordCI w t hne hWord, List.any_map]
  apply listAny_congr
  intro r _
  simp only [Function.comp_apply, replRun]
  split
  · next hrw =>
    have h1 : decide (kollega.map lc = u.map lc) = false := by
      simpa using hk
    have h2 : decide (r.map lc = u.map lc) = false := by
      simp only [decide_eq_false_iff_not]
      intro hru
      exact huw (hru.symm.trans hrw)
    rw [h1, h2]
  · rfl

theorem isSubl_of_hasWordCI (u t : List Char) (h : hasWordCI u t = true) :
    isSubl (u.map lc) (t.map lc) = true := by
  rw [hasWordCI, List.any_eq_true] at h
  obtain ⟨r, hr, hrw⟩ := h
  rw [decide_eq_true_eq] at hrw
  obtain ⟨l1, l2, hsplit⟩ := List.append_of_mem hr
  rw [isSubl_iff]
  refine ⟨l1.flatten.map lc, l2.flatten.map lc, ?_⟩
  have ht : t = l1.flatten ++ r ++ l2.flatten := by
    conv_lhs => rw [← toRuns_flatten t, hsplit]
    simp [List.flatten_append]
  rw [ht]
  simp only [List.map_append]
  rw [hrw]

theorem hasWordCI_congr (u w t : List Char) (huw : u.map lc = w.map lc) :
    hasWordCI u t = hasWordCI w t := by
  rw [hasWordCI, hasWordCI]
  apply listAny_congr
  intro r _
  rw [huw]

theorem hasWordCI_checkWord_self (w t : List Char) (hne : w ≠ [])
    (hWord : ∀ c ∈ w, isW c = true) (hk : kollega.map lc ≠ w.map lc)
    (hwlc : w.map lc = w) :
    hasWordCI w (checkWord t w) = false := by
  rw [checkWord]
  split
  · exact hasWordCI_subWordCI_self w t hne hWord hk
  · next hgate =>
    cases hrw : hasWordCI w t with
    | false => rfl
    | true =>
      have hsub := isSubl_of_hasWordCI w t hrw
      rw [hwlc] at hsub
      exact absurd hsub (by simpa using hgate)

theorem hasWordCI_checkWord_other (u w t : List Char) (hne : w ≠ [])
    (hWord : ∀ c ∈ w, isW c = true) (hk : kollega.map lc ≠ u.map lc)
    (hwlc : w.map lc = w) (h : hasWordCI u t = false) :
    hasWordCI u (checkWord t w) = false := by
  by_cases huw : u.map lc = w.map lc
  · rw [hasWordCI_congr u w _ huw]
    exact hasWordCI_checkWord_self w t hne hWord (fun hkk => hk (hkk.trans huw.symm)) hwlc
  · rw [checkWord]
    split
    · rw [hasWordCI_subWordCI_other u w t hne hWord hk huw]
      exact h
    · exact h

theorem foldl_checkWord_preserve (ws : List (List Char)) (t u : List Char)
    (hws : ∀ w ∈ ws, w ≠ [] ∧ (∀ c ∈ w, isW c = true) ∧ w.map lc = w)
    (hk : kollega.map lc ≠ u.map lc) (h : hasWordCI u t = false) :
    hasWordCI u (ws.foldl checkWord t) = false := by
  induction ws generalizing t with
  | nil => exact h
  | cons w ws' ih =>
    rw [List.foldl_cons]
    have hw := hws w (by simp)
    exact ih _ (fun x hx => hws x (by simp [hx]))
      (hasWordCI_checkWord_other u w t hw.1 hw.2.1 hk hw.2.2 h)

theorem foldl_checkWord_kill (ws : List (List Char)) (t u : List Char) (hu : u ∈ ws)
    (hws : ∀ w ∈ ws, w ≠ [] ∧ (∀ c ∈ w, isW c = true) ∧ w.map lc = w)
    (hk : kollega.map lc ≠ u.map lc) :
    hasWordCI u (ws.foldl checkWord t) = false := by
  induction ws generalizing t with
  | nil => cases hu
  | cons w ws' ih =>
    rw [List.foldl_cons]
    rcases List.mem_cons.mp hu with rfl | hu'
    · have hw := hws u (by simp)
      exact foldl_checkWord_preserve ws' _ u (fun x hx => hws x (by simp [hx])) hk
        (hasWordCI_checkWord_self u t hw.1 hw.2.1 (fun hkk => hk hkk) hw.2.2)
    · exact ih _ hu' (fun x hx => hws x (by simp [hx]))

/-- After the forbidden-words loop, no forbidden word remains as a
standalone word, whatever the input text. -/
theorem applyForbidden_clean (t : List Char) :
    ∀ u ∈ forbiddenWords, hasWordCI u (applyForbidden t) = false := by
  intro u hu
  have hfacts : ∀ w ∈ forbiddenWords, w ≠ [] ∧ (∀ c ∈ w, isW c = true) ∧ w.map lc = w := by
    decide
  have hkoll : ∀ w ∈ forbiddenWords, kollega.map lc ≠ w.map lc := by decide
  exact foldl_checkWord_kill forbiddenWords t u hu hfacts (hkoll u hu)

/-- The forbidden-words loop leaves a text without forbidden substrings
unchanged. -/
theorem applyForbidden_id (t : List Char)
    (h : ∀ w ∈ forbiddenWords, isSubl w (t.map lc) = false) :
    applyForbidden t = t := by
  have h1 := h "дружище".data (by decide)
  have h2 := h "брат".data (by decide)
  have h3 := h "парень".data (by decide)
  have h4 := h "чувак".data (by decide)
  have h5 := h "мужик".data (by decide)
  simp only [applyForbidden, forbiddenWords, List.foldl_cons, List.foldl_nil,
    checkWord, h1, h2, h3, h4, h5, Bool.false_eq_true, if_false]

/-! ## Dictionary lemmas (for add_to_history metadata semantics) -/

theorem setKey_cons_ne (p : String × PyVal) (d : PyDict) (k : String) (v : PyVal)
    (h : p.1 ≠ k) : setKey (p :: d) k v = p :: setKey d k v := by
  have hb : (p.1 == k) = false := by simpa using h
  rw [setKey, setKey]
  simp only [List.any_cons, hb, Bool.false_or]
  by_cases hd : (d.any fun q => q.1 == k) = true
  · rw [if_pos hd, if_pos hd]
    simp only [List.map_cons, if_neg h]
  · rw [if_neg hd, if_neg hd]
    simp

theorem lookupKey_setKey_self (d : PyDict) (k : String) (v : PyVal) :
    lookupKey (setKey d k v) k = some v := by
  induction d with
  | nil => simp [setKey, lookupKey]
  | cons p d' ih =>
    by_cases hpk : p.1 = k
    · rw [setKey, if_pos (by simp [hpk])]
      simp [List.map_cons, if_pos hpk, lookupKey]
    · rw [setKey_cons_ne p d' k v hpk]
      simp only [lookupKey, if_neg hpk]
      exact ih

theorem lookupKey_map_setKey (d' : PyDict) (k k' : String) (v : PyVal) (hkk : k' ≠ k) :
    lookupKey (d'.map (fun q => if q.1 = k then (k, v) else q)) k' = lookupKey d' k' := by
  induction d' with
  | nil => rfl
  | cons q d'' ih =>
    simp only [List.map_cons]
    by_cases hq : q.1 = k
    · rw [if_pos hq]
      simp only [lookupKey]
      rw [if_neg (fun hh => hkk hh.symm), if_neg (by rw [hq]; exact fun hh => hkk hh.symm)]
      exact ih
    · rw [if_neg hq]
      simp only [lookupKey]
      by_cases hq2 : q.1 = k'
      · rw [if_pos hq2, if_pos hq2]
      · rw [if_neg hq2, if_neg hq2]
        exact ih

theorem lookupKey_append_single (d : PyDict) (k k' : String) (v : PyVal) (h : k' ≠ k) :
    lookupKey (d ++ [(k, v)]) k' = lookupKey d k' := by
  induction d with
  | nil =>
    simp only [List.nil_append, lookupKey]
    rw [if_neg (fun hh => h hh.symm)]
  | cons p d' ih =>
    simp only [List.cons_append, lookupKey]
    split
    · rfl
    · exact ih

theorem lookupKey_setKey_ne (d : PyDict) (k k' : String) (v : PyVal) (h : k' ≠ k) :
    lookupKey (setKey d k v) k' = lookupKey d k' := by
  rw [setKey]
  split
  · exact lookupKey_map_setKey d k k' v h
  · exact lookupKey_append_single d k k' v h

theorem lookupKey_eq_none_of_not_mem (d : PyDict) (k : String)
    (h : k ∉ d.map (fun p => p.1)) : lookupKey d k = none := by
  induction d with
  | nil => rfl
  | cons p d' ih =>
    simp only [List.map_cons, List.mem_cons] at h
    push_neg at h
    simp only [lookupKey]
    rw [if_neg (fun hh => h.1 hh.symm)]
    exact ih h.2

theorem lookupKey_dictUpdate (d m : PyDict) (k : String)
    (hnd : (m.map (fun p => p.1)).Nodup) :
    lookupKey (dictUpdate d m) k =
      match lookupKey m k with
      | some v => some v
      | none => lookupKey d k := by
  induction m generalizing d with
  | nil => rfl
  | cons q m' ih =>
    rw [dictUpdate, List.foldl_cons]
    have hnd' : (m'.map (fun p => p.1)).Nodup := (List.nodup_cons.mp hnd).2
    have hq : q.1 ∉ m'.map (fun p => p.1) := (List.nodup_cons.mp hnd).1
    have hstep := ih (setKey d q.1 q.2) hnd'
    rw [dictUpdate] at hstep
    rw [hstep]
    by_cases hk : k = q.1
    · rw [hk, lookupKey_eq_none_of_not_mem m' q.1 hq]
      simp [lookupKey, lookupKey_setKey_self]
    · simp only [lookupKey]
      rw [if_neg (fun hh => hk hh.symm)]
      rw [lookupKey_setKey_ne d q.1 k q.2 hk]

/-! ## C10 — metadata silently overwrites entry fields -/

/-- C10: in `add_to_history`, when the metadata dict has none of the keys
`role`/`content`/`timestamp`, the stored entry keeps the `role` and
`content` arguments; when it does have such a key, the metadata value
silently overwrites the field. -/
theorem c10_metadata_overwrite (role content ts : List Char) (md : PyDict)
    (hnd : (md.map (fun p => p.1)).Nodup) :
    (lookupKey md "role" = none →
      lookupKey (mkEntry role content ts md) "role" = some (.vStr role))
    ∧ (lookupKey md "content" = none →
      lookupKey (mkEntry role content ts md) "content" = some (.vStr content))
    ∧ (lookupKey md "timestamp" = none →
      lookupKey (mkEntry role content ts md) "timestamp" = some (.vStr ts))
    ∧ (∀ v, lookupKey md "role" = some v →
      lookupKey (mkEntry role content ts md) "role" = some v)
    ∧ (∀ v, lookupKey md "content" = some v →
      lookupKey (mkEntry role content ts md) "content" = some v)
    ∧ (∀ v, lookupKey md "timestamp" = some v →
      lookupKey (mkEntry role content ts md) "timestamp" = some v) := by
  have base := fun k => lookupKey_dictUpdate
    [("role", PyVal.vStr role), ("content", PyVal.vStr content), ("timestamp", PyVal.vStr ts)]
    md k hnd
  refine ⟨fun h => ?_, fun h => ?_, fun h => ?_, fun v h => ?_, fun v h => ?_, fun v h => ?_⟩ <;>
    rw [mkEntry, base, h] <;> simp [lookupKey]

/-- C10 witness: a metadata dict with key `content` overwrites the stored
text. -/
theorem c10_metadata_overwrite_witness :
    ((([("content", PyVal.vStr "x".data)] : PyDict).map (fun p => p.1)).Nodup
      ∧ lookupKey [("content", PyVal.vStr "x".data)] "content" = some (.vStr "x".data))
    ∧ lookupKey (mkEntry "assistant".data "y".data [] [("content", PyVal.vStr "x".data)])
        "content" = some (.vStr "x".data) :=
  ⟨⟨by decide, by decide⟩,
    (c10_metadata_overwrite "assistant".data "y".data [] [("content", PyVal.vStr "x".data)]
      (by decide)).2.2.2.2.1 _ (by decide)⟩

/-! ## C8 — strict rotation of the turn queue -/

/-- C8: the turn queue rotates strictly: what was second becomes current,
and after `n` advances (`n` = configured length ≥ 1) the original queue
returns; in particular for `["a", "b"]` two advances restore `"a"`. -/
theorem c8_turn_queue_rotation (q : List String) (h : 1 ≤ q.length) :
    advanceQueue^[q.length] q = q
    ∧ (∀ a b rest, q = a :: b :: rest → ((advanceQueue q).headD "") = b)
    ∧ advanceQueue (advanceQueue ["a", "b"]) = ["a", "b"]
    ∧ (getNextAgent (advanceQueue (advanceQueue ["a", "b"]))).1 = "a" := by
  refine ⟨?_, ?_, by decide, by decide⟩
  · have hgen : ∀ n, advanceQueue^[n] q = q.rotate n := by
      intro n
      induction n with
      | zero => simp
      | succ k ih =>
        rw [Function.iterate_succ_apply', ih]
        simp [advanceQueue, getNextAgent, List.rotate_rotate]
    rw [hgen, List.rotate_length]
  · rintro a b rest rfl
    simp [advanceQueue, getNextAgent, List.rotate_cons_succ]

/-- C8 witness at the configured order `["a", "b"]`. -/
theorem c8_turn_queue_rotation_witness :
    1 ≤ (["a", "b"] : List String).length
    ∧ advanceQueue^[(["a", "b"] : List String).length] ["a", "b"] = ["a", "b"] :=
  ⟨by decide, (c8_turn_queue_rotation ["a", "b"] (by decide)).1⟩

/-! ## C9 — average tokens per turn never divides by zero -/

/-- C9: `get_statistics` returns average 0 on a fresh session (0 turns)
and `total_tokens / total_turns` when there are turns; the zero-turn case
is guarded, so no division by zero occurs. -/
theorem c9_statistics_average (s : DMState) (d : Nat) :
    (s.replyCount = 0 → (getStatistics s d).averageTokensPerReply = 0)
    ∧ (0 < s.replyCount →
        (getStatistics s d).averageTokensPerReply * (s.replyCount : ℚ) = (s.totalTokens : ℚ))
    ∧ (getStatistics (initState ["agent_1", "agent_2"] 10) d).averageTokensPerReply = 0 := by
  refine ⟨fun h => ?_, fun h => ?_, ?_⟩
  · simp [getStatistics, h]
  · rw [getStatistics]
    simp only [if_pos h]
    rw [div_mul_cancel₀]
    exact Nat.cast_ne_zero.mpr (by omega)
  · simp [getStatistics, initState]

/-- C9 witness: fresh session, and a session with 2 turns and 30 tokens. -/
theorem c9_statistics_average_witness :
    ((initState ["agent_1", "agent_2"] 10).replyCount = 0
      ∧ (getStatistics (initState ["agent_1", "agent_2"] 10) 0).averageTokensPerReply = 0)
    ∧ (0 < ({ initState ["agent_1", "agent_2"] 10 with
          replyCount := 2, totalTokens := 30 } : DMState).replyCount
      ∧ (getStatistics { initState ["agent_1", "agent_2"] 10 with
          replyCount := 2, totalTokens := 30 } 0).averageTokensPerReply * (2 : ℚ) = 30) :=
  ⟨⟨rfl, (c9_statistics_average (initState ["agent_1", "agent_2"] 10) 0).1 rfl⟩,
   ⟨by decide, by
      have := (c9_statistics_average { initState ["agent_1", "agent_2"] 10 with
        replyCount := 2, totalTokens := 30 } 0).2.1 (by decide)
      simpa using this⟩⟩

/-! ## C3 — history buffer bound and oldest-first truncation -/

/-- C3 counterexample: with `max_history = 0` Python's `history[-0:]` is
the whole list, so one append leaves length 1 > 0, violating the bound. -/
theorem c3_counterexample :
    (addToHistory 0 ([] : List Nat) 7).length = 1
    ∧ ¬ (addToHistory 0 ([] : List Nat) 7).length ≤ 0 := by
  decide

theorem foldl_addToHistory {α : Type} (m : Nat) (hm : 1 ≤ m) (es : List α) :
    es.foldl (addToHistory m) [] = es.drop (es.length - m) := by
  induction es using List.reverseRecOn with
  | nil => simp
  | append_singleton es e ih =>
    rw [List.foldl_append, List.foldl_cons, List.foldl_nil, ih]
    rw [addToHistory]
    by_cases hlen : es.length < m
    · have h0 : es.length - m = 0 := by omega
      rw [h0, List.drop_zero]
      rw [if_neg (by simp only [List.length_append, List.length_singleton]; omega)]
      have h1 : (es ++ [e]).length - m = 0 := by
        simp only [List.length_append, List.length_singleton]; omega
      rw [h1, List.drop_zero]
    · have hml : m ≤ es.length := by omega
      have hd : (es.drop (es.length - m)).length = m := by
        rw [List.length_drop]; omega
      rw [if_pos (by simp only [List.length_append, List.length_singleton, hd]; omega)]
      rw [pySliceLast, if_neg (by omega)]
      have h2 : (es.drop (es.length - m) ++ [e]).length - m = 1 := by
        simp only [List.length_append, List.length_singleton, hd]; omega
      rw [h2]
      rw [List.drop_append_of_le_length (by rw [hd]; omega)]
      rw [List.drop_append_of_le_length (show (es ++ [e]).length - m ≤ es.length by
        simp only [List.length_append, List.length_singleton]; omega)]
      rw [List.drop_drop]
      congr 1
      · congr 1
        simp only [List.length_append, List.length_singleton]
        omega

/-- C3, amended to `max_history ≥ 1`: the history after any sequence of
appends (starting empty) is exactly the last-`max_history` suffix of all
appended entries — the bound holds and the oldest entries are dropped
first, survivors in order; in particular 5 appends at `max_history = 3`
leave the last 3. -/
theorem c3_amended {α : Type} (m : Nat) (hm : 1 ≤ m) (es : List α) :
    es.foldl (addToHistory m) [] = es.drop (es.length - m)
    ∧ (es.foldl (addToHistory m) []).length ≤ m
    ∧ ([1, 2, 3, 4, 5] : List Nat).foldl (addToHistory 3) [] = [3, 4, 5] := by
  refine ⟨foldl_addToHistory m hm es, ?_, by decide⟩
  rw [foldl_addToHistory m hm es, List.length_drop]
  omega

/-- C3 witness at `max_history = 3` with five appended records. -/
theorem c3_amended_witness :
    (1 ≤ 3
      ∧ ([1, 2, 3, 4, 5] : List Nat).foldl (addToHistory 3) []
        = ([1, 2, 3, 4, 5] : List Nat).drop (([1, 2, 3, 4, 5] : List Nat).length - 3))
    ∧ ([1, 2, 3, 4, 5] : List Nat).drop (([1, 2, 3, 4, 5] : List Nat).length - 3) = [3, 4, 5] :=
  ⟨⟨by decide, (c3_amended 3 (by decide) [1, 2, 3, 4, 5]).1⟩, by decide⟩

/-! ## C5 — the exported transcript is truncated with the buffer -/

/-- C5: `save_dialog_log` exports `self.history`, which `add_to_history`
has already truncated to the last `max_history` records; after 5 turns
with `max_history = 3` the export contains only the last 3 records and
the first records are gone, contradicting the claimed unbounded export
(and the function's own docstring, which promises the full dialogue). -/
theorem c5_export_truncated (st et : List Char) :
    (saveDialogLog c5State st et).history = c5Entries.drop 2
    ∧ ((saveDialogLog c5State st et).history).length = 3
    ∧ c5Entries.length = 5
    ∧ lookupKey (c5Entries.headD []) "content" = some (.vStr "r1".data)
    ∧ ∀ e ∈ (saveDialogLog c5State st et).history,
        lookupKey e "content" ≠ some (.vStr "r1".data) := by
  have hh : (saveDialogLog c5State st et).history = c5State.history := rfl
  refine ⟨by rw [hh]; decide, by rw [hh]; decide, by decide, by decide, ?_⟩
  simp only [hh]
  decide

/-! ## C4 — emotion tag extraction -/

/-- C4 counterexample: `_extract_emotion` uses `str.replace`, which
removes ALL occurrences of the found tag, not only the first: on
`"[JOY] Hello [JOY]"` the second occurrence is removed too, so the
remaining text is `"Hello"`, not `"Hello [JOY]"`. -/
theorem c4_counterexample :
    (extractEmotion "[JOY] Hello [JOY]".data ["[JOY]".data]).2 ≠ "Hello [JOY]".data
    ∧ extractEmotion "[JOY] Hello [JOY]".data ["[JOY]".data] = ("[JOY]".data, "Hello".data)
    ∧ isSubl "[JOY]".data (extractEmotion "[JOY] Hello [JOY]".data ["[JOY]".data]).2
      = false := by
  decide

/-- C4, amended: `extract` scans the participant's tag list in order and,
for the first listed tag occurring in the text, removes ALL its
occurrences (`str.replace`) and trims; occurrences of other known tags
and of bracketed substrings not in the list are left; with no known tag
present it returns the neutral tag and the trimmed text unchanged. -/
theorem c4_amended (text : List Char) (tags : List (List Char))
    (h : ∀ tg ∈ tags, isSubl tg text = false) :
    extractEmotion text tags = (neutralTag, strip text)
    ∧ extractEmotion "[JOY] Hello".data ["[JOY]".data] = ("[JOY]".data, "Hello".data)
    ∧ extractEmotion "Hello".data ["[JOY]".data] = (neutralTag, "Hello".data)
    ∧ extractEmotion "[JOY] Hello [JOY]".data ["[JOY]".data] = ("[JOY]".data, "Hello".data)
    ∧ extractEmotion "[A] hi [B]".data ["[A]".data, "[B]".data]
      = ("[A]".data, "hi [B]".data) := by
  refine ⟨?_, by decide, by decide, by decide, by decide⟩
  induction tags with
  | nil => rfl
  | cons tg rest ih =>
    have h0 : isSubl tg text = false := h tg (by simp)
    simp only [extractEmotion, h0, Bool.false_eq_true, if_false]
    exact ih (fun x hx => h x (by simp [hx]))

/-- C4 witness: a text containing no known tag. -/
theorem c4_amended_witness :
    (∀ tg ∈ (["[JOY]".data] : List (List Char)), isSubl tg "Hello".data = false)
    ∧ extractEmotion "Hello".data ["[JOY]".data] = (neutralTag, strip "Hello".data) :=
  ⟨by decide, (c4_amended "Hello".data ["[JOY]".data] (by decide)).1⟩

/-! ## C6 — gender-correction rule ordering -/

/-- C6: in the ordered gender-correction list, every multi-word pattern
precedes each single-word pattern that occurs in it as a standalone
word, so multi-word idioms are corrected before the contained single
words could corrupt them; and `"Я уверен, что прав"` sanitizes (for the
gender-corrected participant) to a text containing `"уверена"` and no
standalone `"уверен"`. -/
theorem c6_gender_rules (i j : Fin genderReplacements.length)
    (hi : ' ' ∈ (genderReplacements.get i).1)
    (hj : ¬ ' ' ∈ (genderReplacements.get j).1)
    (hocc : hasWordCI (genderReplacements.get j).1 (genderReplacements.get i).1 = true) :
    (i : Nat) < (j : Nat)
    ∧ validateAndFixReply "Я уверен, что прав".data "agent_2"
      = "я уверена, что прав".data
    ∧ isSubl "уверена".data (validateAndFixReply "Я уверен, что прав".data "agent_2") = true
    ∧ hasWordCI "уверен".data (validateAndFixReply "Я уверен, что прав".data "agent_2")
      = false := by
  refine ⟨?_, by decide, by decide, by decide⟩
  revert hi hj hocc
  revert i j
  decide

/-- C6 witness: the multi-word pattern `"я уверен"` (index 0) precedes
the single-word pattern `"уверен"` (index 8) that it contains. -/
theorem c6_gender_rules_witness :
    (' ' ∈ (genderReplacements.get ⟨0, by decide⟩).1
      ∧ ¬ ' ' ∈ (genderReplacements.get ⟨8, by decide⟩).1
      ∧ hasWordCI (genderReplacements.get ⟨8, by decide⟩).1
          (genderReplacements.get ⟨0, by decide⟩).1 = true)
    ∧ ((⟨0, by decide⟩ : Fin genderReplacements.length) : Nat)
      < ((⟨8, by decide⟩ : Fin genderReplacements.length) : Nat) :=
  ⟨⟨by decide, by decide, by decide⟩,
    (c6_gender_rules ⟨0, by decide⟩ ⟨8, by decide⟩ (by decide) (by decide) (by decide)).1⟩

/-! ## C7 — forbidden words eliminated for every input -/

/-- C7: for every participant and every text of at least 5 trimmed
characters, after `_validate_and_fix_reply` no denylisted term remains
as a standalone word; the replacement used is the neutral collegial term
(`"дружище"` example shown). -/
theorem c7_forbidden_sanitize (text : List Char) (agentId : String)
    (h : 5 ≤ (strip text).length) :
    (∀ w ∈ forbiddenWords, hasWordCI w (validateAndFixReply text agentId) = false)
    ∧ validateAndFixReply "Привет, дружище! Как дела?".data "agent_1"
      = "Привет, коллега! Как дела?".data := by
  refine ⟨?_, by decide⟩
  intro w hw
  rw [validateAndFixReply, if_neg (by omega)]
  exact applyForbidden_clean _ w hw

/-- C7 witness at a concrete denylisted input. -/
theorem c7_forbidden_sanitize_witness :
    5 ≤ (strip "Привет, дружище! Как дела?".data).length
    ∧ ∀ w ∈ forbiddenWords,
        hasWordCI w (validateAndFixReply "Привет, дружище! Как дела?".data "agent_1")
          = false :=
  ⟨by decide,
    (c7_forbidden_sanitize "Привет, дружище! Как дела?".data "agent_1" (by decide)).1⟩

/-- C2 counterexample: the forbidden-word substitution runs AFTER the
truncation and lengthens the text (`мужик` → `коллега`), so the result
of `_validate_and_fix_reply` on a >1000-character input can exceed 1000
characters (here: 1332). -/
theorem c2_counterexample :
    1000 < longMuzhik.length
    ∧ (validateAndFixReply longMuzhik "agent_1").length = 1332
    ∧ ¬ (validateAndFixReply longMuzhik "agent_1").length ≤ 1000 := by
  refine ⟨by decide, by decide, by decide⟩

/-- C2, amended: for a participant without gender correction and a text
longer than 1000 characters with at least 5 trimmed characters whose
truncation contains no denylisted term, `_validate_and_fix_reply`
returns exactly the first 997 characters followed by the ellipsis
marker: length exactly 1000, ending in `"..."`. (The counterexample
shows the length bound fails when denylisted terms are present, and the
filler branch fires below 5 trimmed characters.) -/
theorem c2_amended (text : List Char) (agentId : String)
    (h5 : 5 ≤ (strip text).length) (hlen : 1000 < text.length)
    (hag : agentId ≠ "agent_2")
    (hfw : ∀ w ∈ forbiddenWords, isSubl w ((text.take 997 ++ "...".data).map lc) = false) :
    validateAndFixReply text agentId = text.take 997 ++ "...".data
    ∧ (validateAndFixReply text agentId).length = 1000
    ∧ (validateAndFixReply text agentId).drop 997 = "...".data := by
  have hmain : validateAndFixReply text agentId = text.take 997 ++ "...".data := by
    rw [validateAndFixReply, if_neg (by omega), if_pos hlen, applyGenderIf, if_neg hag]
    exact applyForbidden_id _ hfw
  have htake : (text.take 997).length = 997 := by
    rw [List.length_take]
    omega
  refine ⟨hmain, ?_, ?_⟩
  · rw [hmain, List.length_append, htake]
    rfl
  · rw [hmain]
    nth_rewrite 1 [← htake]
    rw [List.drop_left]

/-- C2 witness: 1001 letters `a`. -/
theorem c2_amended_witness :
    (5 ≤ (strip (List.replicate 1001 'a')).length
      ∧ 1000 < (List.replicate 1001 'a' : List Char).length
      ∧ ("agent_1" : String) ≠ "agent_2"
      ∧ ∀ w ∈ forbiddenWords,
          isSubl w (((List.replicate 1001 'a').take 997 ++ "...".data).map lc) = false)
    ∧ validateAndFixReply (List.replicate 1001 'a') "agent_1"
      = (List.replicate 1001 'a').take 997 ++ "...".data :=
  ⟨⟨by decide, by decide, by decide, by decide⟩,
    (c2_amended (List.replicate 1001 'a') "agent_1"
      (by decide) (by decide) (by decide) (by decide)).1⟩

theorem generateResponseFail_eq (l : List AttemptFail) :
    generateResponseFail l = (apologyText, 0) := by
  induction l with
  | nil => rfl
  | cons a rest ih =>
    cases rest with
    | nil => cases a <;> rfl
    | cons b r2 => cases a <;> exact ih

theorem validate_exceptionFallback (a : String) :
    validateAndFixReply (exceptionFallback a) a = exceptionFallback a := by
  by_cases h1 : a = "agent_1"
  · subst h1
    decide
  · rw [exceptionFallback, if_neg h1]
    by_cases h2 : a = "agent_2"
    · subst h2
      decide
    · have hA : ¬ ((strip "[ЛЮБОПЫТСТВО] Ой, а давай вернёмся к теме!".data).length < 5) := by
        decide
      have hB : ¬ (1000 < "[ЛЮБОПЫТСТВО] Ой, а давай вернёмся к теме!".data.length) := by
        decide
      rw [validateAndFixReply, if_neg hA, if_neg hB, applyGenderIf, if_neg h2]
      exact applyForbidden_id _ (by decide)

theorem validate_apology (a : String) :
    validateAndFixReply apologyText a = apologyText := by
  by_cases h2 : a = "agent_2"
  · subst h2
    decide
  · have hA : ¬ ((strip apologyText).length < 5) := by decide
    have hB : ¬ (1000 < apologyText.length) := by decide
    rw [validateAndFixReply, if_neg hA, if_neg hB, applyGenderIf, if_neg h2]
    exact applyForbidden_id _ (by decide)

theorem exceptionFallback_ne_nil (a : String) : exceptionFallback a ≠ [] := by
  rw [exceptionFallback]
  split <;> decide

theorem getNextReplyFail_spec (cfg : String → AgentCfg) (s : DMState) (o : BackendOutcome) :
    ((getNextReplyFail cfg s o).1.agentId, (getNextReplyFail cfg s o).1.fullText,
      (getNextReplyFail cfg s o).1.tokens)
      = ((getNextAgent s.agentQueue).1, expectedFailResult (getNextAgent s.agentQueue).1 o)
    ∧ (getNextReplyFail cfg s o).2.agentQueue = (getNextAgent s.agentQueue).2
    ∧ (getNextReplyFail cfg s o).2.replyCount = s.replyCount + 1
    ∧ (getNextReplyFail cfg s o).2.totalTokens
      = s.totalTokens + (if o = BackendOutcome.raised then 10 else 0) := by
  cases o with
  | raised =>
    refine ⟨?_, rfl, rfl, by
      show s.totalTokens + 10 = s.totalTokens + (if BackendOutcome.raised = BackendOutcome.raised then 10 else 0)
      simp⟩
    show ((getNextAgent s.agentQueue).1,
        validateAndFixReply (exceptionFallback (getNextAgent s.agentQueue).1)
          (getNextAgent s.agentQueue).1, 10)
      = ((getNextAgent s.agentQueue).1,
         expectedFailResult (getNextAgent s.agentQueue).1 BackendOutcome.raised)
    rw [validate_exceptionFallback]
    rfl
  | retriesExhausted attempts =>
    have hg := generateResponseFail_eq attempts
    refine ⟨?_, rfl, rfl, ?_⟩
    · show ((getNextAgent s.agentQueue).1,
        validateAndFixReply (generateResponseFail attempts).1 (getNextAgent s.agentQueue).1,
        (generateResponseFail attempts).2)
        = ((getNextAgent s.agentQueue).1,
           expectedFailResult (getNextAgent s.agentQueue).1
             (BackendOutcome.retriesExhausted attempts))
      rw [hg]
      rw [validate_apology]
      rfl
    · show s.totalTokens + (generateResponseFail attempts).2 = _
      rw [hg]
      simp

/-- C1, amended: under a failing backend no call raises (the model is
total), the turn count after N calls is N, and per turn the code
produces exactly: the participant-specific fallback with 10 tokens when
the backend raised, but the backend's apology sentinel (not the
participant fallback) with 0 tokens (not 10) when the backend exhausted
its retries; every returned text is nonempty, and the cumulative token
total grows by 10 per raising turn only. -/
theorem c1_failing_backend (cfg : String → AgentCfg) (s : DMState)
    (os : List BackendOutcome) :
    (runFails cfg s os).1.map (fun r => (r.agentId, r.fullText, r.tokens))
      = expectedFailOutputs s.agentQueue os
    ∧ (runFails cfg s os).2.replyCount = s.replyCount + os.length
    ∧ (runFails cfg s os).2.totalTokens
      = s.totalTokens + 10 * (os.count BackendOutcome.raised)
    ∧ ∀ r ∈ (runFails cfg s os).1, r.fullText ≠ [] := by
  induction os generalizing s with
  | nil =>
    refine ⟨rfl, rfl, by simp [runFails], by simp [runFails]⟩
  | cons o os ih =>
    obtain ⟨hspec1, hq, hrc, htt⟩ := getNextReplyFail_spec cfg s o
    obtain ⟨ih1, ih2, ih3, ih4⟩ := ih (getNextReplyFail cfg s o).2
    refine ⟨?_, ?_, ?_, ?_⟩
    · show ((getNextReplyFail cfg s o).1 ::
          (runFails cfg (getNextReplyFail cfg s o).2 os).1).map
            (fun r => (r.agentId, r.fullText, r.tokens))
        = expectedFailOutputs s.agentQueue (o :: os)
      rw [List.map_cons, expectedFailOutputs]
      rw [ih1, hq]
      congr 1
    · show (runFails cfg (getNextReplyFail cfg s o).2 os).2.replyCount = _
      rw [ih2, hrc, List.length_cons]
      omega
    · show (runFails cfg (getNextReplyFail cfg s o).2 os).2.totalTokens = _
      rw [ih3, htt, List.count_cons]
      by_cases ho : o = BackendOutcome.raised
      · simp only [ho, if_pos rfl, beq_self_eq_true, if_true]
        omega
      · simp [ho]
    · intro r hr
      rcases List.mem_cons.mp hr with heq | hr'
      · rw [heq]
        have hft : (getNextReplyFail cfg s o).1.fullText
            = (expectedFailResult (getNextAgent s.agentQueue).1 o).1 :=
          congrArg (fun p => p.2.1) hspec1
        rw [hft]
        cases o with
        | raised => exact exceptionFallback_ne_nil _
        | retriesExhausted attempts =>
          show apologyText ≠ []
          decide
      · exact ih4 r hr'

/-- C1 counterexample: one call in which the backend exhausts its
internal retries produces a turn (total_turns = 1) whose text is the
backend's apology sentinel, not the participant-specific fallback, and
which adds 0 tokens, not 10. -/
theorem c1_counterexample :
    (runFails cfg0 (initState ["agent_1", "agent_2"] 10)
        [BackendOutcome.retriesExhausted [.raise, .raise, .raise]]).2.replyCount = 1
    ∧ (runFails cfg0 (initState ["agent_1", "agent_2"] 10)
        [BackendOutcome.retriesExhausted [.raise, .raise, .raise]]).2.totalTokens = 0
    ∧ (runFails cfg0 (initState ["agent_1", "agent_2"] 10)
        [BackendOutcome.retriesExhausted [.raise, .raise, .raise]]).1.map
          (fun r => r.fullText)
      = [apologyText]
    ∧ apologyText ≠ exceptionFallback "agent_1" := by
  refine ⟨by decide, by decide, by decide, by decide⟩

end AvatarStream
